import Mathlib

/-!
Shallow embedding of `main.go` of the snmp_exporter repository, together with
theorems settling the specification claims about it.

Conventions of the embedding:
* Go `int` values become `Int`; Go slices become `List`.
* Go maps become association lists; an assignment `m[k] = v` appends `(k, v)`
  and reads take the latest binding, which reproduces Go's overwrite semantics.
* Code that can panic at runtime (out-of-range indexing or slicing, `make` with
  a negative size) is modelled in `Option`, with `none` standing for the panic.
* Strings are Lean `String`s; the few byte-level Go operations that occur
  (`s[1:]`, `string([]byte)`) are modelled at character granularity, which
  coincides with the byte view on the ASCII data the program handles.
-/

namespace SnmpExporter

/-- All-decimal-digit parse helper for `goAtoi`: `some` of the value when the
character list is a nonempty run of decimal digits, `none` otherwise. -/
def parseDigits (ds : List Char) : Option Nat :=
  if ds ≠ [] ∧ ds.all (fun c => c.isDigit) then
    some (ds.foldl (fun n c => 10 * n + (c.toNat - 48)) 0)
  else none

/-- `strconv.Atoi(x)` with the error discarded, as in `OidToList`
(main.go line 53): an optionally signed run of decimal digits parses to its
value, anything else (including the empty string) yields `0`. The 64-bit
clamping of `strconv.Atoi` on overflow is not modelled; no OID component in any
claim approaches it. -/
def goAtoi (s : List Char) : Int :=
  match s with
  | '+' :: rest => ((parseDigits rest).map Int.ofNat).getD 0
  | '-' :: rest => ((parseDigits rest).map (fun n => -Int.ofNat n)).getD 0
  | ds => ((parseDigits ds).map Int.ofNat).getD 0

/-- `strings.Split(s, ".")` over the character list of `s`: the groups of
characters between the dots, in order. Splitting the empty string yields one
empty group, as in Go. -/
def splitOnDotChars : List Char → List (List Char)
  | [] => [[]]
  | c :: rest =>
    match splitOnDotChars rest with
    | [] => [[c]]
    | g :: gs => if c = '.' then [] :: g :: gs else (c :: g) :: gs

/-- `OidToList` (main.go lines 50-57): split the dotted OID string on `'.'` and
parse every component with `strconv.Atoi`, discarding parse errors. -/
def OidToList (oid : String) : List Int :=
  (splitOnDotChars oid.data).map goAtoi

/-- `splitOid` (main.go lines 201-212). The head is `make([]int, count)` with
`head[i] = v` for every element at position `i < count`, i.e. the first `count`
elements of `oid` zero-padded on the right. The source's else-branch is
`tail = append(tail, i)` — it appends the loop INDEX `i`, not the element `v` —
so the tail is the list of positions `count, count+1, …, len(oid)-1`, not the
remaining elements. A negative `count` makes Go's `make` panic, modelled as
`none`. -/
def splitOid (oid : List Int) (count : Int) : Option (List Int × List Int) :=
  if count < 0 then none
  else
    let n := count.toNat
    some (oid.take n ++ List.replicate (n - oid.length) 0,
          ((List.range oid.length).drop n).map Int.ofNat)

/-- Go's integer-to-string conversion `string(v)` (a code-point conversion, not
decimal formatting): the one-character string holding the rune `v`, or the
replacement character `"�"` when `v` is not a valid rune (negative, a
surrogate, or above `0x10FFFF`). -/
def goIntToString (v : Int) : String :=
  if 0 ≤ v ∧ (v < 0xd800 ∨ (0xe000 ≤ v ∧ v < 0x110000)) then
    String.mk [Char.ofNat v.toNat]
  else
    String.mk [Char.ofNat 0xfffd]

/-- `fmt.Sprintf("%02X", o)`: uppercase hexadecimal, left-padded with `'0'` to
a minimum total width of 2 (the sign of a negative value counts toward the
width, as in Go's fmt). -/
def goSprintf02X (o : Int) : String :=
  let body := (Nat.toDigits 16 o.natAbs).map Char.toUpper
  if o < 0 then String.mk ('-' :: body)
  else String.mk (List.replicate (2 - body.length) '0' ++ body)

/-- Go string slicing `s[1:]`, used on `pdu.Name` (main.go line 154) and on
object-identifier values (line 225). Go panics when `s` is empty (`1 > len(s)`),
modelled as `none`; otherwise the first character is removed unconditionally
(byte-level in Go, which coincides with the character drop on the ASCII strings
involved). -/
def goStringTail (s : String) : Option String :=
  if s.isEmpty then none else some (s.drop 1)

/-- Go `string(parts)` for a `[]byte`: each byte becomes the character with
that code point (byte-for-byte view of the claims' ASCII data). -/
def stringOfBytes (bs : List Nat) : String :=
  String.mk (bs.map Char.ofNat)

/-- Read from a Go map modelled as an association list: the latest binding for
the key (assignments append on the right), or `none` when the key is absent. -/
def mapGet {α : Type} (m : List (String × α)) (k : String) : Option α :=
  (m.reverse.find? (fun p => p.1 == k)).map (fun p => p.2)

/-- Go map assignment `m[k] = v`: append the binding; `mapGet` takes the
latest one, so this reproduces overwrite semantics. -/
def mapSet {α : Type} (m : List (String × α)) (k : String) (v : α) : List (String × α) :=
  m ++ [(k, v)]

/-- Read from a Go map with the zero value as default: `m[k]` for an absent
key yields the zero value of the element type (for slices, the empty list). -/
def mapGetD {α : Type} (m : List (String × α)) (k : String) (d : α) : α :=
  (mapGet m k).getD d

/-- The fragment of gosnmp's `Asn1BER` tag type that main.go inspects: the only
comparison in the source is with `gosnmp.ObjectIdentifier` (line 223). -/
inductive Asn1BER where
  | objectIdentifier
  | other
  deriving DecidableEq

/-- The dynamic type of `pdu.Value` (a Go `interface{}`), restricted to the
cases `pduValueAsString` (main.go lines 214-236) distinguishes: `int`, `uint`,
`int64`, `string`, `[]byte`, and the default (nil / anything else). -/
inductive PduValue where
  | ofInt (v : Int)
  | ofUInt (v : Nat)
  | ofInt64 (v : Int)
  | ofString (s : String)
  | ofBytes (bs : List Nat)
  | ofNil
  deriving DecidableEq

/-- `gosnmp.SnmpPDU` as used by main.go: the OID name string, the ASN.1 value
tag, and the raw value. The Go field `Type` is called `typ` here because `Type`
is reserved in Lean. -/
structure SnmpPDU where
  Name : String
  typ : Asn1BER
  Value : PduValue
  deriving DecidableEq

/-- An index specification of a metric (config data model; the config source
file is not part of src/, the fields are exactly the ones main.go dereferences:
`index.Labelname` and `index.Type`, the latter called `typ` here because `Type`
is reserved in Lean). -/
structure Index where
  Labelname : String
  typ : String
  deriving DecidableEq

/-- A lookup specification of a metric (config data model; fields as
dereferenced by main.go lines 321-330: `lookup.Oid`, `lookup.Labels`,
`lookup.Labelname`). -/
structure Lookup where
  Labels : List String
  Labelname : String
  Oid : String
  deriving DecidableEq

/-- A metric definition (config data model; fields as dereferenced by main.go:
`metric.Name`, `metric.Oid`, `metric.Indexes`, `metric.Lookups`). -/
structure Metric where
  Name : String
  Oid : String
  Indexes : List Index
  Lookups : List Lookup
  deriving DecidableEq

/-- A module (config data model; fields as dereferenced by main.go:
`config.Walk` in `ScrapeTarget`, `c.module.Metrics` in `Collect`). -/
structure Module where
  Walk : List String
  Metrics : List Metric
  deriving DecidableEq

/-- `pduValueAsString` (main.go lines 214-236). The integer cases are Go
`string(...)` code-point conversions, exactly as in the source. The
object-identifier case slices `[1:]`, which panics (`none`) on an empty string.
The default case is `fmt.Sprintf("%s", pdu.Value)`, which for a nil value
prints `"%!s(<nil>)"`. -/
def pduValueAsString (pdu : SnmpPDU) : Option String :=
  match pdu.Value with
  | .ofInt v => some (goIntToString v)
  | .ofUInt v => some (goIntToString (Int.ofNat v))
  | .ofInt64 v => some (goIntToString v)
  | .ofString s =>
    if pdu.typ = Asn1BER.objectIdentifier then goStringTail s else some s
  | .ofBytes bs => some (stringOfBytes bs)
  | .ofNil => some "%!s(<nil>)"

/-- The three accumulators threaded through the index-decoding loop of
`indexesToLabels`: the rendered labels, the raw consumed components per label,
and the remaining index suffix. -/
structure DecodeState where
  labels : List (String × String)
  labelOids : List (String × List Int)
  indexOids : List Int
  deriving DecidableEq

/-- `parts := make([]string, size)` followed by `for i, o := range values`
writing `parts[i]`: when `values` has more than `size` elements the write at
position `size` is out of range and Go panics (`none`); otherwise the unwritten
slots keep their zero value `""`. -/
def goSetParts (size : Nat) (values : List String) : Option (List String) :=
  if values.length ≤ size then some (values ++ List.replicate (size - values.length) "")
  else none

/-- The IPv6 branch of the InetAddress case (main.go lines 283-289): a fixed
loop `for i := 0; i < 8; i++` reads `address[i*2]` and `address[i*2+1]`, so it
panics (`none`) unless `address` has at least 16 elements. -/
def ipv6Parts (address : List Int) : Option (List String) :=
  if 16 ≤ address.length then
    some ((List.range 8).map (fun i =>
      goSprintf02X (address.getD (2 * i) 0) ++ goSprintf02X (address.getD (2 * i + 1) 0)))
  else none

/-- One arm of the `switch index.Type` in `indexesToLabels`
(main.go lines 243-317), transforming the decode state. Unknown index types
fall through the switch and leave the state unchanged. The `IpAddress` case is
modelled exactly as written in the source: `parts := make([]string, 3)` while
the loop ranges over the 4-element `subOid`, so the write at position 3 is out
of range (`none`). -/
def applyIndex (st : DecodeState) (index : Index) : Option DecodeState :=
  if index.typ = "Integer32" then do
    let (subOid, rest) ← splitOid st.indexOids 1
    let v ← subOid.head?
    pure ⟨mapSet st.labels index.Labelname (toString v),
          mapSet st.labelOids index.Labelname subOid, rest⟩
  else if index.typ = "PhysAddress48" then do
    let (subOid, rest) ← splitOid st.indexOids 6
    let parts ← goSetParts 6 (subOid.map goSprintf02X)
    pure ⟨mapSet st.labels index.Labelname (String.intercalate ":" parts),
          mapSet st.labelOids index.Labelname subOid, rest⟩
  else if index.typ = "OctetString" then do
    let (subOid, rest) ← splitOid st.indexOids 1
    let len ← subOid.head?
    let (content, rest2) ← splitOid rest len
    pure ⟨mapSet st.labels index.Labelname
            (stringOfBytes (content.map (fun o => (o.emod 256).toNat))),
          mapSet st.labelOids index.Labelname (subOid ++ content), rest2⟩
  else if index.typ = "InetAddress" then do
    let (addressType, rest1) ← splitOid st.indexOids 1
    let (octets, rest2) ← splitOid rest1 1
    let t ← addressType.head?
    let n ← octets.head?
    let (address, rest3) ← splitOid rest2 n
    let labelOids := mapSet st.labelOids index.Labelname (addressType ++ octets ++ address)
    if t = 1 then do
      let parts ← goSetParts 4 (address.map goIntToString)
      pure ⟨mapSet st.labels index.Labelname (String.intercalate "." parts), labelOids, rest3⟩
    else if t = 2 then do
      let parts ← ipv6Parts address
      pure ⟨mapSet st.labels index.Labelname (String.intercalate ":" parts), labelOids, rest3⟩
    else
      pure ⟨st.labels, labelOids, rest3⟩
  else if index.typ = "IpAddress" then do
    let (subOid, rest) ← splitOid st.indexOids 4
    let parts ← goSetParts 3 (subOid.map goIntToString)
    pure ⟨mapSet st.labels index.Labelname (String.intercalate "." parts),
          mapSet st.labelOids index.Labelname subOid, rest⟩
  else if index.typ = "InetAddressType" then do
    let (subOid, rest) ← splitOid st.indexOids 1
    let v ← subOid.head?
    let rendered :=
      if v = 0 then "unknown"
      else if v = 1 then "ipv4"
      else if v = 2 then "ipv6"
      else if v = 3 then "ipv4v"
      else if v = 4 then "ipv6v"
      else if v = 16 then "dns"
      else goIntToString v
    pure ⟨mapSet st.labels index.Labelname rendered,
          mapSet st.labelOids index.Labelname subOid, rest⟩
  else
    some st

/-- The OID string a lookup resolves to (main.go lines 322-327): start from
`lookup.Oid` and, for each referenced label in declared order, append
`fmt.Sprintf("%s.%d", oid, o)` for each raw component `o` recorded for that
label (`labelOids[label]` is the empty slice for an unrecorded label). -/
def lookupTargetOid (lookup : Lookup) (labelOids : List (String × List Int)) : String :=
  lookup.Labels.foldl
    (fun oid label =>
      (mapGetD labelOids label []).foldl (fun s o => s ++ "." ++ toString o) oid)
    lookup.Oid

/-- One iteration of the lookup loop (main.go lines 321-331): resolve the
target OID; when a PDU exists there, stringify it into `lookup.Labelname`,
otherwise leave the labels unchanged. -/
def applyLookup (oidToPdu : List (String × SnmpPDU)) (labelOids : List (String × List Int))
    (labels : List (String × String)) (lookup : Lookup) : Option (List (String × String)) :=
  match mapGet oidToPdu (lookupTargetOid lookup labelOids) with
  | some pdu => (pduValueAsString pdu).map (fun v => mapSet labels lookup.Labelname v)
  | none => some labels

/-- `indexesToLabels` (main.go lines 238-334): fold the index-decoding switch
over `metric.Indexes`, then the lookup loop over `metric.Lookups`; `none`
models a runtime panic anywhere inside. -/
def indexesToLabels (indexOids : List Int) (metric : Metric)
    (oidToPdu : List (String × SnmpPDU)) : Option (List (String × String)) := do
  let st ← metric.Indexes.foldlM applyIndex ⟨[], [], indexOids⟩
  metric.Lookups.foldlM
    (fun labels lookup => applyLookup oidToPdu st.labelOids labels lookup) st.labels

/-- `MetricNode` (main.go lines 103-107): an optional owning metric and a map
from the next OID component to the child node, modelled as an association
list. -/
inductive MetricNode where
  | mk (metric : Option Metric) (children : List (Int × MetricNode))

/-- `&MetricNode{children: map[int]*MetricNode{}}`. -/
def emptyNode : MetricNode := .mk none []

/-- The `metric` field of a node. -/
def nodeMetric : MetricNode → Option Metric
  | .mk m _ => m

/-- The `children` field of a node. -/
def nodeChildren : MetricNode → List (Int × MetricNode)
  | .mk _ cs => cs

/-- Map read `head.children[o]` on a node's children. -/
def findChild (cs : List (Int × MetricNode)) (o : Int) : Option MetricNode :=
  match cs with
  | [] => none
  | (k, n) :: rest => if k = o then some n else findChild rest o

/-- Map write `head.children[o] = n` on a node's children. -/
def setChild (cs : List (Int × MetricNode)) (o : Int) (n : MetricNode) :
    List (Int × MetricNode) :=
  match cs with
  | [] => [(o, n)]
  | (k, c) :: rest => if k = o then (o, n) :: rest else (k, c) :: setChild rest o n

/-- The body of `buildMetricTree`'s outer loop for one metric
(main.go lines 113-121): walk the component path, creating missing children,
and set the terminal node's metric. -/
def insertMetric : MetricNode → List Int → Metric → MetricNode
  | .mk _ cs, [], metric => .mk (some metric) cs
  | .mk m cs, o :: rest, metric =>
    .mk m (setChild cs o (insertMetric ((findChild cs o).getD emptyNode) rest metric))

/-- `buildMetricTree` (main.go lines 110-124). -/
def buildMetricTree (metrics : List Metric) : MetricNode :=
  metrics.foldl (fun t metric => insertMetric t (OidToList metric.Oid) metric) emptyNode

/-- The matching walk of the `PduLoop` body (main.go lines 161-174): step into
the child for each component; a missing child means no match; the first child
carrying a metric commits, with the components after it as the index suffix.
The root's own metric is never examined, exactly as in the source. -/
def walkMatch : MetricNode → List Int → Option (Metric × List Int)
  | _, [] => none
  | t, o :: rest =>
    match findChild (nodeChildren t) o with
    | none => none
    | some child =>
      match nodeMetric child with
      | some m => some (m, rest)
      | none => walkMatch child rest

/-- The node reached from `t` by following a component path (proof-side view
of the trie; not a function of the Go source). -/
def nodeAt : MetricNode → List Int → Option MetricNode
  | t, [] => some t
  | t, o :: rest =>
    match findChild (nodeChildren t) o with
    | none => none
    | some child => nodeAt child rest

/-- The metric stored at the node reached by a component path (proof-side view
of the trie). -/
def metricAt (t : MetricNode) (p : List Int) : Option Metric :=
  (nodeAt t p).bind nodeMetric

/-- The per-PDU loop of `Collect` building `oidToPdu`
(main.go lines 152-155): each PDU is keyed by `pdu.Name[1:]` — the name with
its first character removed unconditionally; an empty name panics (`none`). -/
def buildOidToPdu : List SnmpPDU → Option (List (String × SnmpPDU))
  | [] => some []
  | pdu :: rest =>
    match goStringTail pdu.Name with
    | none => none
    | some key => (buildOidToPdu rest).map (fun m => (key, pdu) :: m)

/-- Iterating a Go map visits each key exactly once with its latest value; the
order is unspecified, so the model fixes one: entries whose key is written
again later are superseded. -/
def dedupKeys : List (String × SnmpPDU) → List (String × SnmpPDU)
  | [] => []
  | (k, v) :: rest =>
    if rest.any (fun p => p.1 == k) then dedupKeys rest
    else (k, v) :: dedupKeys rest

/-- One emission on the `Collect` output channel: the two bookkeeping gauges,
one sample per matched PDU, and the closing duration gauge. The wall-clock
duration values are external to the model. -/
inductive CollectOutput where
  | walkDuration
  | pdusReturned (n : Nat)
  | sample (name : String) (labels : List (String × String)) (value : Int)
  | scrapeDuration
  deriving DecidableEq

/-- The numeric sample value `float64(gosnmp.ToBigInt(pdu.Value).Int64())`
(main.go line 194). `gosnmp.ToBigInt` and the float widening belong to
external collaborators; the model records the integer handed over: integer-like
values carry their value, anything else is recorded as 0. No claim depends on
this value. -/
def gaugeValue : PduValue → Int
  | .ofInt v => v
  | .ofUInt v => Int.ofNat v
  | .ofInt64 v => v
  | _ => 0

/-- `pduToSample` (main.go lines 182-197): decode the index suffix into labels
and assemble one observation carrying the metric name, the labels and the
numeric value. -/
def pduToSample (indexOids : List Int) (pdu : SnmpPDU) (metric : Metric)
    (oidToPdu : List (String × SnmpPDU)) : Option CollectOutput := do
  let labels ← indexesToLabels indexOids metric oidToPdu
  pure (CollectOutput.sample metric.Name labels (gaugeValue pdu.Value))

/-- The retrieval loop of `ScrapeTarget` (main.go lines 87-100): walk each
subtree of `config.Walk` in order, concatenating the PDUs; the first failing
subtree aborts the whole scrape with an error and discards everything already
retrieved. The wire-level walk itself is the external retrieval collaborator,
passed in as `walkFn`. -/
def scrapeWalk (walkFn : String → Except String (List SnmpPDU)) :
    List String → List SnmpPDU → Except String (List SnmpPDU)
  | [], result => .ok result
  | subtree :: rest, result =>
    match walkFn subtree with
    | .error e => .error e
    | .ok pdus => scrapeWalk walkFn rest (result ++ pdus)

/-- `Collect` (main.go lines 137-180) as the list of emissions on the output
channel: on a retrieval error, log and return — nothing is emitted; otherwise
emit the two bookkeeping gauges, then one sample per PDU that matches the
metric tree, then the closing duration gauge. `none` models a panic inside the
pipeline. -/
def collect (walkFn : String → Except String (List SnmpPDU)) (module : Module) :
    Option (List CollectOutput) :=
  match scrapeWalk walkFn module.Walk [] with
  | .error _ => some []
  | .ok pdus => do
    let oidToPdu ← buildOidToPdu pdus
    let tree := buildMetricTree module.Metrics
    let samples ← (dedupKeys oidToPdu).foldlM
      (fun acc entry =>
        match walkMatch tree (OidToList entry.1) with
        | some (metric, suffix) =>
          (pduToSample suffix entry.2 metric oidToPdu).map (fun s => acc ++ [s])
        | none => pure acc) ([] : List CollectOutput)
    pure (CollectOutput.walkDuration :: CollectOutput.pdusReturned pdus.length ::
          samples ++ [CollectOutput.scrapeDuration])

/-! ## Claim theorems -/

/-- C1 (code bug witness): on `oid = [5, 6, 7]` and `count = 1` the source's
`splitOid` returns the tail `[1, 2]` — the loop indices of the elements beyond
the split point, because the else-branch appends `i` instead of `v` — rather
than the elements `[6, 7]` that the claim, the function's own comment
("split at the given point") and its caller's comment ("keep the remainder for
the next index") describe. The head is zero-padded correctly. -/
theorem splitOid_tail_returns_indices :
    splitOid [5, 6, 7] 1 = some ([5], [1, 2]) ∧ ([1, 2] : List Int) ≠ [6, 7] := by
  decide

/-- C2 (code bug witness): decoding the suffix `[1, 2, 3, 4]` against a single
`IpAddress` index is a runtime failure — the source allocates
`parts := make([]string, 3)` while its loop ranges over the 4-element `subOid`,
so the write at position 3 is out of range — contradicting the claim that
`indexesToLabels` terminates normally on every input drawn from the six known
index types. -/
theorem indexesToLabels_ipaddress_pan :
    indexesToLabels [1, 2, 3, 4] ⟨"m", "1.2", [⟨"a", "IpAddress"⟩], []⟩ [] = none := by
  decide

/-- C5 (code bug witness): for a PDU carrying the `int` value 65,
`pduValueAsString` returns `"A"` — Go's `string(65)` code-point conversion —
not the decimal string `"65"` the claim describes. -/
theorem pduValueAsString_int_is_codepoint :
    pduValueAsString ⟨".1.2", Asn1BER.other, PduValue.ofInt 65⟩ = some "A" ∧
    ("A" : String) ≠ "65" := by
  decide

/-- C6 (code bug witness): decoding an `InetAddress` index on the suffix
`[1, 4, 192, 168, 1, 1]` yields the label `"\x01..."`, not `"192.168.1.1"`:
the `splitOid` tail bug turns the remainder into loop indices (so the octet
count read is 1 and the single address octet is 1), and the octet is rendered
with Go's `string(o)` code-point conversion. -/
theorem inetaddress_decode_actual :
    indexesToLabels [1, 4, 192, 168, 1, 1]
        ⟨"m", "1.2", [⟨"addr", "InetAddress"⟩], []⟩ [] =
      some [("addr", String.mk [Char.ofNat 1, '.', '.', '.'])] ∧
    String.mk [Char.ofNat 1, '.', '.', '.'] ≠ "192.168.1.1" := by
  decide

/-- C7 (counterexample): decoding a `PhysAddress48` index on
`[0, 26, 171, 62, 86, 255]` does not yield `"AA:1A:AB:3E:56:FF"` — the first
byte is 0, which `%02X` renders as `"00"`, not `"AA"`. -/
theorem physaddress_decode_not_aa :
    (indexesToLabels [0, 26, 171, 62, 86, 255]
        ⟨"m", "1.2", [⟨"mac", "PhysAddress48"⟩], []⟩ []).bind
      (fun ls => mapGet ls "mac") ≠ some "AA:1A:AB:3E:56:FF" := by
  decide

/-- C7 (amended): decoding a `PhysAddress48` index on
`[0, 26, 171, 62, 86, 255]` yields `"00:1A:AB:3E:56:FF"`: each byte rendered
as two-digit uppercase hex and the six parts joined by colons, the zero byte
rendering as `"00"`. -/
theorem physaddress_decode_00 :
    (indexesToLabels [0, 26, 171, 62, 86, 255]
        ⟨"m", "1.2", [⟨"mac", "PhysAddress48"⟩], []⟩ []).bind
      (fun ls => mapGet ls "mac") = some "00:1A:AB:3E:56:FF" := by
  decide

/-- C9: the PDU-by-OID map of `Collect` keys every PDU by its `Name` with the
first character removed unconditionally — whatever that character is — and an
empty `Name` makes the slice `pdu.Name[1:]` panic, modelled as `none`. -/
theorem collect_keys_by_unconditional_tail (pdus : List SnmpPDU) :
    buildOidToPdu pdus =
      if ∀ p ∈ pdus, p.Name ≠ "" then some (pdus.map (fun p => (p.Name.drop 1, p)))
      else none := by
  induction pdus with
  | nil => simp [buildOidToPdu]
  | cons p rest ih =>
    by_cases hp : p.Name = ""
    · simp [buildOidToPdu, goStringTail, hp, String.isEmpty_iff]
    · have hne : p.Name.isEmpty = false := by
        rw [Bool.eq_false_iff]
        intro hcontra
        exact hp (String.isEmpty_iff p.Name |>.mp hcontra)
      by_cases hrest : ∀ q ∈ rest, q.Name ≠ ""
      · simp [buildOidToPdu, goStringTail, hne, ih, hrest, hp]
      · simp [buildOidToPdu, goStringTail, hne, ih, hrest, hp]

/-- Helper for C10: reading an absent key out of the raw-components map gives
the Go zero value, the empty slice. -/
theorem mapGetD_of_none {α : Type} (m : List (String × α)) (k : String) (d : α)
    (h : mapGet m k = none) : mapGetD m k d = d := by
  simp [mapGetD, h]

/-- C10: a referenced label with no recorded raw components contributes
nothing to a lookup's target OID — the target built with the label in the
reference list equals the one built without it, and no failure occurs. -/
theorem lookup_skips_unrecorded_label (base nm label : String)
    (pre post : List String) (labelOids : List (String × List Int))
    (hmissing : mapGet labelOids label = none) :
    lookupTargetOid ⟨pre ++ label :: post, nm, base⟩ labelOids =
      lookupTargetOid ⟨pre ++ post, nm, base⟩ labelOids := by
  simp only [lookupTargetOid, List.foldl_append, List.foldl_cons]
  rw [mapGetD_of_none _ _ _ hmissing]
  rfl

/-- C10 witness: the concrete lookup over base `"1.2.3"` with the unrecorded
label `"gone"` followed by the recorded label `"x"` resolves to the same
target OID as the lookup over `"x"` alone. -/
theorem lookup_skips_unrecorded_label_witness :
    lookupTargetOid ⟨[] ++ "gone" :: ["x"], "n", "1.2.3"⟩ [("x", [7])] =
      lookupTargetOid ⟨[] ++ ["x"], "n", "1.2.3"⟩ [("x", [7])] :=
  lookup_skips_unrecorded_label "1.2.3" "n" "gone" [] ["x"] [("x", [7])] (by decide)

/-- Spec-side rendering of raw index components for a lookup: each component
in order, preceded by a dot, all concatenated (the spec's "appended in the
declared label order and dot-joined" after the base OID). -/
def dotJoinComponents : List Int → String
  | [] => ""
  | o :: os => "." ++ toString o ++ dotJoinComponents os

/-- Helper for C8: the inner fold of `lookupTargetOid` appends exactly the
dot-joined components to whatever prefix has been built so far. -/
theorem foldl_dot_append (os : List Int) (base : String) :
    os.foldl (fun s o => s ++ "." ++ toString o) base = base ++ dotJoinComponents os := by
  induction os generalizing base with
  | nil => simp [dotJoinComponents, String.append_empty]
  | cons o os ih =>
    rw [List.foldl_cons, ih, dotJoinComponents]
    simp [String.append_assoc]

/-- Helper for C8: `dotJoinComponents` distributes over concatenation. -/
theorem dotJoinComponents_append (xs ys : List Int) :
    dotJoinComponents (xs ++ ys) = dotJoinComponents xs ++ dotJoinComponents ys := by
  induction xs with
  | nil => simp [dotJoinComponents, String.empty_append]
  | cons x xs ih => simp [dotJoinComponents, ih, String.append_assoc]

/-- Helper for C8: the resolved target OID is the base OID followed by the raw
components recorded for each referenced label, in declared order, dot-joined. -/
theorem lookupTargetOid_spec (lookup : Lookup) (labelOids : List (String × List Int)) :
    lookupTargetOid lookup labelOids =
      lookup.Oid ++
        dotJoinComponents ((lookup.Labels.map (fun l => mapGetD labelOids l [])).flatten) := by
  unfold lookupTargetOid
  generalize lookup.Oid = base
  induction lookup.Labels generalizing base with
  | nil => simp [dotJoinComponents, String.append_empty]
  | cons l ls ih =>
    simp only [List.foldl_cons, List.map_cons, List.flatten_cons]
    rw [ih, foldl_dot_append, dotJoinComponents_append, String.append_assoc]

/-- C8: the lookup loop resolves the target OID as the base OID followed by
the raw integer components recorded for each referenced label in declared
order, dot-joined; and when no PDU exists at that OID string the lookup leaves
the label set unchanged — the output label is absent and no error is raised. -/
theorem lookup_resolution (lookup : Lookup) (labelOids : List (String × List Int))
    (oidToPdu : List (String × SnmpPDU)) (labels : List (String × String))
    (habsent : mapGet oidToPdu (lookupTargetOid lookup labelOids) = none) :
    lookupTargetOid lookup labelOids =
      lookup.Oid ++
        dotJoinComponents ((lookup.Labels.map (fun l => mapGetD labelOids l [])).flatten) ∧
    applyLookup oidToPdu labelOids labels lookup = some labels := by
  refine ⟨lookupTargetOid_spec lookup labelOids, ?_⟩
  simp [applyLookup, habsent]

/-- C8 witness: the concrete lookup with base `"1.2.3"` and one referenced
label carrying raw components `[4, 5]` resolves to `"1.2.3" ++ ".4.5"`, i.e.
`"1.2.3.4.5"`, and with no PDU at that OID the labels are left untouched. -/
theorem lookup_resolution_witness :
    lookupTargetOid ⟨["i"], "n", "1.2.3"⟩ [("i", [4, 5])] =
      "1.2.3" ++ dotJoinComponents [4, 5] ∧
    applyLookup [] [("i", [4, 5])] [] ⟨["i"], "n", "1.2.3"⟩ = some [] :=
  lookup_resolution ⟨["i"], "n", "1.2.3"⟩ [("i", [4, 5])] [] [] (by decide)

/-- Helper for C3: if any subtree in the remaining walk list fails, the whole
retrieval loop fails, whatever has been accumulated so far. -/
theorem scrapeWalk_error_of_mem (walkFn : String → Except String (List SnmpPDU))
    (l : List String) (root : String) (e : String)
    (hmem : root ∈ l) (hfail : walkFn root = .error e) :
    ∀ acc, ∃ msg, scrapeWalk walkFn l acc = .error msg := by
  induction l with
  | nil => cases hmem
  | cons subtree rest ih =>
    intro acc
    cases hsub : walkFn subtree with
    | error msg => exact ⟨msg, by simp [scrapeWalk, hsub]⟩
    | ok pdus =>
      have hroot : root ∈ rest := by
        cases List.mem_cons.mp hmem with
        | inl heq => rw [heq] at hfail; rw [hfail] at hsub; cases hsub
        | inr h => exact h
      obtain ⟨msg, hmsg⟩ := ih hroot (acc ++ pdus)
      exact ⟨msg, by simp [scrapeWalk, hsub, hmsg]⟩

/-- C3: if retrieval of any root OID in `module.Walk` fails, the entire scrape
produces zero observations — `Collect` emits nothing at all, discarding the
PDUs already retrieved from earlier roots of the same scrape. -/
theorem scrape_all_or_nothing (walkFn : String → Except String (List SnmpPDU))
    (module : Module) (root : String) (e : String)
    (hmem : root ∈ module.Walk) (hfail : walkFn root = .error e) :
    collect walkFn module = some [] := by
  obtain ⟨msg, hmsg⟩ := scrapeWalk_error_of_mem walkFn module.Walk root e hmem hfail []
  simp [collect, hmsg]

/-- C3 witness: a module walking two roots where the first succeeds with a
retrieved PDU and the second fails yields zero observations for the whole
scrape. -/
theorem scrape_all_or_nothing_witness :
    collect
      (fun s => if s = "1.3.6" then Except.ok [⟨".1.3.6.1", Asn1BER.other, PduValue.ofInt 3⟩]
                else Except.error "no response")
      ⟨["1.3.6", "1.3.9"], []⟩ = some [] :=
  scrape_all_or_nothing _ ⟨["1.3.6", "1.3.9"], []⟩ "1.3.9" "no response"
    (by decide) rfl

/-! ## Trie correctness (C4) -/

/-- Unfolding lemma: a map write followed by a read on a node's children. -/
theorem findChild_setChild (cs : List (Int × MetricNode)) (o o' : Int) (n : MetricNode) :
    findChild (setChild cs o n) o' = if o' = o then some n else findChild cs o' := by
  induction cs with
  | nil =>
    by_cases h : o' = o
    · simp [setChild, findChild, h]
    · simp [setChild, findChild, h, Ne.symm h]
  | cons hd rest ih =>
    obtain ⟨k, c⟩ := hd
    by_cases hk : k = o
    · subst hk
      by_cases h : o' = k
      · simp [setChild, findChild, h]
      · simp [setChild, findChild, h, Ne.symm h]
    · by_cases h : k = o'
      · subst h
        simp [setChild, findChild, hk, Ne.symm hk]
      · simp [setChild, findChild, hk, h, ih]

/-- Unfolding lemma for `nodeAt` on a nonempty path. -/
theorem nodeAt_cons (mm : Option Metric) (cs : List (Int × MetricNode)) (a : Int)
    (qr : List Int) :
    nodeAt (.mk mm cs) (a :: qr) =
      match findChild cs a with
      | none => none
      | some c => nodeAt c qr := rfl

/-- Unfolding lemma for `metricAt` on a nonempty path. -/
theorem metricAt_cons (mm : Option Metric) (cs : List (Int × MetricNode)) (a : Int)
    (qr : List Int) :
    metricAt (.mk mm cs) (a :: qr) =
      match findChild cs a with
      | none => none
      | some c => metricAt c qr := by
  cases h : findChild cs a <;> simp [metricAt, nodeAt, nodeChildren, h]

/-- Unfolding lemma for `walkMatch` on a nonempty path. -/
theorem walkMatch_cons (mm : Option Metric) (cs : List (Int × MetricNode)) (o : Int)
    (rest : List Int) :
    walkMatch (.mk mm cs) (o :: rest) =
      match findChild cs o with
      | none => none
      | some child =>
        match nodeMetric child with
        | some m => some (m, rest)
        | none => walkMatch child rest := rfl

/-- The empty node stores no metric anywhere. -/
theorem metricAt_emptyNode (q : List Int) : metricAt emptyNode q = none := by
  cases q with
  | nil => rfl
  | cons o rest => rfl

/-- Inserting a metric along a path stores it exactly at that path and leaves
the metric stored at every other path unchanged. -/
theorem metricAt_insert (p : List Int) (t : MetricNode) (q : List Int) (m : Metric) :
    metricAt (insertMetric t p m) q = if q = p then some m else metricAt t q := by
  induction p generalizing t q with
  | nil =>
    obtain ⟨mm, cs⟩ := t
    cases q with
    | nil => simp [insertMetric, metricAt, nodeAt, nodeMetric]
    | cons a qr =>
      rw [if_neg (by simp : (a :: qr) ≠ ([] : List Int))]
      show metricAt (.mk (some m) cs) (a :: qr) = metricAt (.mk mm cs) (a :: qr)
      rw [metricAt_cons, metricAt_cons]
  | cons o pr ih =>
    obtain ⟨mm, cs⟩ := t
    cases q with
    | nil =>
      rw [if_neg (by simp : ([] : List Int) ≠ o :: pr)]
      rfl
    | cons a qr =>
      have hins : insertMetric (.mk mm cs) (o :: pr) m =
          .mk mm (setChild cs o (insertMetric ((findChild cs o).getD emptyNode) pr m)) := rfl
      by_cases ha : a = o
      · subst ha
        rw [hins, metricAt_cons, findChild_setChild, if_pos rfl]
        show metricAt (insertMetric ((findChild cs a).getD emptyNode) pr m) qr =
          if a :: qr = a :: pr then some m else metricAt (.mk mm cs) (a :: qr)
        rw [ih]
        by_cases hq : qr = pr
        · subst hq
          simp
        · rw [if_neg hq, if_neg (by simp [hq] : (a :: qr) ≠ (a :: pr)), metricAt_cons]
          cases h : findChild cs a with
          | none => simp [metricAt_emptyNode]
          | some c => rfl
      · rw [hins, metricAt_cons, findChild_setChild, if_neg ha, ← metricAt_cons mm,
          if_neg (by simp [ha] : (a :: qr) ≠ (o :: pr))]

/-- Inserting a metric along a path creates every node on that path. -/
theorem nodeAt_insert_isSome_along (q : List Int) (p : List Int) (t : MetricNode) (m : Metric)
    (h : q <+: p) : (nodeAt (insertMetric t p m) q).isSome := by
  induction q generalizing p t with
  | nil => simp [nodeAt]
  | cons a qr ih =>
    cases p with
    | nil =>
      rw [List.prefix_nil] at h
      cases h
    | cons b pr =>
      obtain ⟨heq, hqr⟩ := (List.cons_prefix_cons).mp h
      subst heq
      obtain ⟨mm, cs⟩ := t
      have hins : insertMetric (.mk mm cs) (a :: pr) m =
          .mk mm (setChild cs a (insertMetric ((findChild cs a).getD emptyNode) pr m)) := rfl
      rw [hins, nodeAt_cons, findChild_setChild, if_pos rfl]
      exact ih pr _ hqr

/-- Inserting a metric never removes an existing node. -/
theorem nodeAt_insert_isSome_mono (q : List Int) (p : List Int) (t : MetricNode) (m : Metric)
    (h : (nodeAt t q).isSome) : (nodeAt (insertMetric t p m) q).isSome := by
  induction q generalizing p t with
  | nil => simp [nodeAt]
  | cons a qr ih =>
    obtain ⟨mm, cs⟩ := t
    rw [nodeAt_cons] at h
    cases hf : findChild cs a with
    | none => rw [hf] at h; simp at h
    | some c =>
      rw [hf] at h
      cases p with
      | nil =>
        show (nodeAt (.mk (some m) cs) (a :: qr)).isSome
        rw [nodeAt_cons, hf]
        exact h
      | cons o pr =>
        have hins : insertMetric (.mk mm cs) (o :: pr) m =
            .mk mm (setChild cs o (insertMetric ((findChild cs o).getD emptyNode) pr m)) := rfl
        by_cases ha : a = o
        · subst ha
          rw [hins, nodeAt_cons, findChild_setChild, if_pos rfl, hf]
          exact ih pr c h
        · rw [hins, nodeAt_cons, findChild_setChild, if_neg ha, hf]
          exact h

/-- A metric stored anywhere in the built tree was put there by some metric of
the list, at exactly that metric's component path. -/
theorem metricAt_fold_mem (l : List Metric) (t : MetricNode) (q : List Int) (m2 : Metric)
    (h : metricAt
        (l.foldl (fun t metric => insertMetric t (OidToList metric.Oid) metric) t) q =
      some m2) :
    metricAt t q = some m2 ∨ ∃ mm ∈ l, OidToList mm.Oid = q := by
  induction l generalizing t with
  | nil => exact Or.inl h
  | cons hd rest ih =>
    rcases ih (insertMetric t (OidToList hd.Oid) hd) h with h1 | h2
    · rw [metricAt_insert] at h1
      by_cases hq : q = OidToList hd.Oid
      · exact Or.inr ⟨hd, List.mem_cons_self _ _, hq.symm⟩
      · rw [if_neg hq] at h1
        exact Or.inl h1
    · obtain ⟨mm, hmm, hoid⟩ := h2
      exact Or.inr ⟨mm, List.mem_cons_of_mem _ hmm, hoid⟩

/-- Folding inserts whose paths all differ from `q` does not change the metric
stored at `q`. -/
theorem metricAt_fold_untouched (l : List Metric) (t : MetricNode) (q : List Int)
    (h : ∀ mm ∈ l, OidToList mm.Oid ≠ q) :
    metricAt (l.foldl (fun t metric => insertMetric t (OidToList metric.Oid) metric) t) q =
      metricAt t q := by
  induction l generalizing t with
  | nil => rfl
  | cons hd rest ih =>
    rw [List.foldl_cons, ih _ (fun mm hmm => h mm (List.mem_cons_of_mem _ hmm)),
      metricAt_insert, if_neg (fun hq => h hd (List.mem_cons_self _ _) hq.symm)]

/-- After building the tree, the node at a member metric's full path stores
that metric, provided no other member shares the exact path. -/
theorem metricAt_fold_self (l : List Metric) (t : MetricNode) (m : Metric)
    (hm : m ∈ l) (huniq : ∀ m2 ∈ l, OidToList m2.Oid = OidToList m.Oid → m2 = m) :
    metricAt (l.foldl (fun t metric => insertMetric t (OidToList metric.Oid) metric) t)
      (OidToList m.Oid) = some m := by
  induction l generalizing t with
  | nil => cases hm
  | cons hd rest ih =>
    rw [List.foldl_cons]
    by_cases hmem : m ∈ rest
    · exact ih _ hmem (fun m2 h2 => huniq m2 (List.mem_cons_of_mem _ h2))
    · have hd_eq : hd = m := by
        cases List.mem_cons.mp hm with
        | inl h => exact h.symm
        | inr h => exact absurd h hmem
      subst hd_eq
      have hrest : ∀ mm ∈ rest, OidToList mm.Oid ≠ OidToList hd.Oid := by
        intro mm hmm heq
        have := huniq mm (List.mem_cons_of_mem _ hmm) heq
        exact hmem (this ▸ hmm)
      rw [metricAt_fold_untouched rest _ _ hrest, metricAt_insert, if_pos rfl]

/-- Folding inserts never removes an existing node. -/
theorem nodeAt_fold_isSome_mono (l : List Metric) (t : MetricNode) (q : List Int)
    (h : (nodeAt t q).isSome) :
    (nodeAt (l.foldl (fun t metric => insertMetric t (OidToList metric.Oid) metric) t)
      q).isSome := by
  induction l generalizing t with
  | nil => exact h
  | cons hd rest ih => exact ih _ (nodeAt_insert_isSome_mono q _ t hd h)

/-- After building the tree, every node along a member metric's path exists. -/
theorem nodeAt_fold_isSome_along (l : List Metric) (t : MetricNode) (m : Metric)
    (q : List Int) (hm : m ∈ l) (hq : q <+: OidToList m.Oid) :
    (nodeAt (l.foldl (fun t metric => insertMetric t (OidToList metric.Oid) metric) t)
      q).isSome := by
  induction l generalizing t with
  | nil => cases hm
  | cons hd rest ih =>
    rw [List.foldl_cons]
    cases List.mem_cons.mp hm with
    | inl heq =>
      subst heq
      exact nodeAt_fold_isSome_mono rest _ q (nodeAt_insert_isSome_along q _ t m hq)
    | inr hmm => exact ih _ hmm

/-- The matching walk commits at the first depth whose node stores a metric,
with everything beyond that depth as the suffix, provided all shallower nodes
along the path exist and store nothing. -/
theorem walkMatch_commits (oid : List Int) (t : MetricNode) (d : Nat) (m : Metric)
    (hd0 : 0 < d) (hdlen : d ≤ oid.length)
    (hbelow : ∀ e, 0 < e → e < d →
      (nodeAt t (oid.take e)).isSome ∧ metricAt t (oid.take e) = none)
    (hat : metricAt t (oid.take d) = some m) :
    walkMatch t oid = some (m, oid.drop d) := by
  induction oid generalizing t d with
  | nil =>
    simp only [List.length_nil] at hdlen
    omega
  | cons o rest ih =>
    obtain ⟨mm, cs⟩ := t
    obtain ⟨d', rfl⟩ : ∃ d', d = d' + 1 := ⟨d - 1, by omega⟩
    rw [List.take_succ_cons, metricAt_cons] at hat
    cases hf : findChild cs o with
    | none => rw [hf] at hat; cases hat
    | some c =>
      rw [hf] at hat
      by_cases hd' : d' = 0
      · subst hd'
        have hc : nodeMetric c = some m := hat
        rw [walkMatch_cons, hf]
        show (match nodeMetric c with
              | some m2 => some (m2, rest)
              | none => walkMatch c rest) = some (m, (o :: rest).drop (0 + 1))
        rw [hc]
        rfl
      · have h1 := hbelow 1 (by omega) (by omega)
        rw [show (1 : Nat) = 0 + 1 from rfl, List.take_succ_cons, List.take_zero,
          metricAt_cons, hf] at h1
        have hc : nodeMetric c = none := h1.2
        rw [walkMatch_cons, hf]
        show (match nodeMetric c with
              | some m2 => some (m2, rest)
              | none => walkMatch c rest) = some (m, (o :: rest).drop (d' + 1))
        rw [hc, List.drop_succ_cons]
        have hdlen2 : d' ≤ rest.length := by
          simp only [List.length_cons] at hdlen
          omega
        apply ih c d' (by omega) hdlen2 ?_ hat
        intro e he0 hed
        have hb := hbelow (e + 1) (by omega) (by omega)
        rw [List.take_succ_cons, nodeAt_cons, metricAt_cons, hf] at hb
        exact hb

/-- `strings.Split` never returns an empty list of groups. -/
theorem splitOnDotChars_ne_nil (cs : List Char) : splitOnDotChars cs ≠ [] := by
  cases cs with
  | nil => simp [splitOnDotChars]
  | cons c rest =>
    simp only [splitOnDotChars]
    cases splitOnDotChars rest with
    | nil => simp
    | cons g gs => by_cases h : c = '.' <;> simp [h]

/-- Every OID string parses to at least one component. -/
theorem OidToList_length_pos (s : String) : 0 < (OidToList s).length := by
  rw [OidToList, List.length_map]
  cases h : splitOnDotChars s.data with
  | nil => exact absurd h (splitOnDotChars_ne_nil _)
  | cons g gs => simp

/-- C4: for metrics with mutually non-overlapping OID paths, every retrieved
OID that is a strict descendant of a member metric's OID matches that metric,
and the index suffix handed to the decoder is the retrieved OID's components
after the first `n`, where `n` is the length of the matched metric's own OID
path. -/
theorem trie_match_correct (metrics : List Metric) (m : Metric) (oid : List Int)
    (hsep : ∀ m1 ∈ metrics, ∀ m2 ∈ metrics, m1 ≠ m2 →
      ¬ (OidToList m1.Oid <+: OidToList m2.Oid))
    (hm : m ∈ metrics)
    (hpre : OidToList m.Oid <+: oid)
    (hstrict : (OidToList m.Oid).length < oid.length) :
    walkMatch (buildMetricTree metrics) oid =
      some (m, oid.drop (OidToList m.Oid).length) := by
  have hd0 : 0 < (OidToList m.Oid).length := OidToList_length_pos _
  have htake : oid.take (OidToList m.Oid).length = OidToList m.Oid := by
    obtain ⟨tl, htl⟩ := hpre
    rw [← htl, List.take_left]
  have htake_e : ∀ e, e ≤ (OidToList m.Oid).length →
      oid.take e = (OidToList m.Oid).take e := by
    intro e he
    have h1 : (oid.take (OidToList m.Oid).length).take e = oid.take e := by
      rw [List.take_take, min_eq_left he]
    rw [← h1, htake]
  have huniq : ∀ m2 ∈ metrics, OidToList m2.Oid = OidToList m.Oid → m2 = m := by
    intro m2 h2 heq
    by_contra hne
    exact hsep m2 h2 m hm hne (heq ▸ List.prefix_refl _)
  have hat : metricAt (buildMetricTree metrics) (oid.take (OidToList m.Oid).length) =
      some m := by
    rw [htake]
    exact metricAt_fold_self metrics emptyNode m hm huniq
  have hbelow : ∀ e, 0 < e → e < (OidToList m.Oid).length →
      (nodeAt (buildMetricTree metrics) (oid.take e)).isSome ∧
      metricAt (buildMetricTree metrics) (oid.take e) = none := by
    intro e he0 hed
    rw [htake_e e (le_of_lt hed)]
    constructor
    · exact nodeAt_fold_isSome_along metrics emptyNode m _ hm
        ⟨(OidToList m.Oid).drop e, List.take_append_drop e _⟩
    · cases hmet : metricAt (buildMetricTree metrics) ((OidToList m.Oid).take e) with
      | none => rfl
      | some m2 =>
        exfalso
        rcases metricAt_fold_mem metrics emptyNode _ m2 hmet with hempty | hput
        · rw [metricAt_emptyNode] at hempty
          cases hempty
        · obtain ⟨mm, hmmem, hmoid⟩ := hput
          have hlen : (OidToList mm.Oid).length = e := by
            rw [hmoid, List.length_take, min_eq_left (le_of_lt hed)]
          have hne : mm ≠ m := by
            intro heq
            rw [heq] at hlen
            omega
          exact hsep mm hmmem m hm hne
            (hmoid ▸ ⟨(OidToList m.Oid).drop e, List.take_append_drop e _⟩)
  exact walkMatch_commits oid (buildMetricTree metrics) (OidToList m.Oid).length m hd0
    (le_of_lt hstrict) hbelow hat

/-- C4 witness: with the non-overlapping metrics at `"1.2"` and `"1.3"`, the
retrieved OID `[1, 2, 5]` matches the `"1.2"` metric with index suffix `[5]`. -/
theorem trie_match_correct_witness :
    walkMatch (buildMetricTree [⟨"a", "1.2", [], []⟩, ⟨"b", "1.3", [], []⟩]) [1, 2, 5] =
      some (⟨"a", "1.2", [], []⟩, [5]) :=
  trie_match_correct [⟨"a", "1.2", [], []⟩, ⟨"b", "1.3", [], []⟩] ⟨"a", "1.2", [], []⟩
    [1, 2, 5] (by decide) (by decide) (by decide) (by decide)

end SnmpExporter
